import Mathlib

/-!
Verification of the work-stealing image-editor repository.

This file gives a shallow embedding of the parts of the Go sources that the
claims refer to, and proves or refutes each claim against that embedding:

* `WorkStealing/CircularArray.go` : `CircularArray`, `NewCircularArray`,
  `GetCapacity`, `GetTask`, `PutTask`, `Resize`.
* `WorkStealing/UDEqueue.go` : `UDEqueue`, `NewUDEqueue`, `IsEmpty`,
  `pushBottom`, `popBottom` (owner-only executions: the claims below quantify
  over sequences of owner operations with no concurrent thieves, so the CAS on
  `top` in `popBottom` always succeeds and is modelled as a plain update).
* `scheduler/pipeutils.go` : `ChunksOfTasks`, `applyOneThread`, `PrepareWorkers`
  and the driver shutdown loop of `RunPipeBSPWS`.
* `scheduler/parslices.go` : `SlicesByRow`.
* the `png` package : `Image`, `GetInputOutputPixels`, `Grayscale`,
  `ConvolveFlat`, `ApplyEffect`, `NewKernel`, `CreateKernels`, `clamp`, the
  buffer selection of `Save`.
* `utils/utils.go` : `CreateTasks`.

Go machine integers (`int`, `int64`) are modelled as `Int` (the program never
comes close to overflow: indices are bounded by task counts and image sizes),
slice contents as total functions guarded by the modular index arithmetic of
the source, `float64` pixel arithmetic as exact `Rat` arithmetic (every
concrete value a claim mentions is exactly representable in `float64`, and the
claims proved below do not depend on rounding of the blur kernel).
-/

namespace ImageEditor

--------------------------------------------------------------------------------
-- WorkStealing/CircularArray.go
--------------------------------------------------------------------------------

/-- Model of `CircularArray` (CircularArray.go). The Go struct holds a slice
`tasks []Runnable` of length `1 << logCapacity`; every access goes through
`i % capacity`, so the slice is modelled as a total function from the slot
index (a natural number: all indices reaching the array in the modelled
executions are non-negative Go ints). A slot holding the nil `Runnable`
interface value is `none`. -/
structure CircularArray (τ : Type) where
  logCapacity : Nat
  tasks : Nat → Option τ

/-- `NewCircularArray`: `make([]Runnable, 1 << logCapacity)` fills the slice
with nil interface values. -/
def NewCircularArray (τ : Type) (logCapacity : Nat) : CircularArray τ :=
  ⟨logCapacity, fun _ => none⟩

/-- `GetCapacity`: `1 << c.logCapacity`. -/
def CircularArray.GetCapacity (c : CircularArray τ) : Nat :=
  2 ^ c.logCapacity

/-- `GetTask`: `c.tasks[i % c.GetCapacity()]`. -/
def CircularArray.GetTask (c : CircularArray τ) (i : Nat) : Option τ :=
  c.tasks (i % c.GetCapacity)

/-- `PutTask`: `c.tasks[i % c.GetCapacity()] = task`. -/
def CircularArray.PutTask (c : CircularArray τ) (i : Nat) (task : Option τ) :
    CircularArray τ :=
  { c with tasks := Function.update c.tasks (i % c.GetCapacity) task }

/-- `Resize(bottom, top)`: allocates a circular array of double capacity and
runs `for i := top; i < bottom; i++ { newCArray.PutTask(i, c.GetTask(i)) }`.
Note the parameter ORDER of the source: the first parameter is named `bottom`,
the second `top`, and the copy loop runs over `[top, bottom)`. -/
def CircularArray.Resize (c : CircularArray τ) (bottom top : Nat) :
    CircularArray τ :=
  (List.range' top (bottom - top)).foldl
    (fun a i => a.PutTask i (c.GetTask i))
    (NewCircularArray τ (c.logCapacity + 1))

--------------------------------------------------------------------------------
-- WorkStealing/UDEqueue.go (owner-only executions)
--------------------------------------------------------------------------------

/-- Model of `UDEqueue` (UDEqueue.go): a circular array plus the two signed
64-bit indices `bottom` and `top`. -/
structure UDEqueue (τ : Type) where
  tasks : CircularArray τ
  bottom : Int
  top : Int

/-- `NewUDEqueue(initialLogCapacity)`: fresh circular array, `bottom = top = 0`. -/
def NewUDEqueue (τ : Type) (initialLogCapacity : Nat) : UDEqueue τ :=
  ⟨NewCircularArray τ initialLogCapacity, 0, 0⟩

/-- `IsEmpty`: `u.bottom <= oldTop`. -/
def UDEqueue.IsEmpty (u : UDEqueue τ) : Bool :=
  u.bottom ≤ u.top

/-- `GetCapacity` of the queue forwards to the circular array. -/
def UDEqueue.GetCapacity (u : UDEqueue τ) : Nat :=
  u.tasks.GetCapacity

/-- `pushBottom(task)` with no concurrent thieves. The source reads `oldTop`,
computes `size = bottom - oldTop`, resizes when `size >= capacity - 1` by
calling `tasks.Resize(int(oldTop), int(u.bottom))` — so the ARGUMENT named
`bottom` inside `Resize` receives `oldTop` and the argument named `top`
receives `u.bottom`, exactly as in the source call — then stores the task at
index `bottom` and increments `bottom`. `bottom` and `oldTop` are non-negative
at every push in an owner-only execution, hence the `Int.toNat` casts. -/
def UDEqueue.pushBottom (u : UDEqueue τ) (task : τ) : UDEqueue τ :=
  let oldTop := u.top
  let size := u.bottom - oldTop
  let tasks :=
    if (u.tasks.GetCapacity : Int) - 1 ≤ size then
      u.tasks.Resize oldTop.toNat u.bottom.toNat
    else
      u.tasks
  { u with
      tasks := tasks.PutTask u.bottom.toNat (some task)
      bottom := u.bottom + 1 }

/-- `popBottom()` with no concurrent thieves: decrement `bottom`, read `top`;
if `size < 0` reset `bottom = top` and return nil; if `size > 0` return the
task at the new `bottom`; if `size == 0` the CAS on `top` succeeds (no thief
competes) and the task is returned with `top` incremented. Returns the popped
value together with the post-state. -/
def UDEqueue.popBottom (u : UDEqueue τ) : Option τ × UDEqueue τ :=
  let b := u.bottom - 1
  let oldTop := u.top
  let size := b - oldTop
  if size < 0 then
    (none, { u with bottom := oldTop })
  else if size > 0 then
    (u.tasks.GetTask b.toNat, { u with bottom := b })
  else
    (u.tasks.GetTask b.toNat, { u with bottom := b, top := oldTop + 1 })

/-- An owner operation on the queue: a push of a task or a pop. -/
inductive OwnerOp (τ : Type) where
  | push (task : τ)
  | pop

/-- One owner operation applied to a queue state. -/
def ownerStep (u : UDEqueue τ) : OwnerOp τ → UDEqueue τ
  | OwnerOp.push task => u.pushBottom task
  | OwnerOp.pop => (u.popBottom).2

/-- A sequence of owner operations applied to a queue state. -/
def runOwnerOps (u : UDEqueue τ) (ops : List (OwnerOp τ)) : UDEqueue τ :=
  ops.foldl ownerStep u

/-- Pushing a list of tasks in order. -/
def pushAll (u : UDEqueue τ) (tasks : List τ) : UDEqueue τ :=
  tasks.foldl UDEqueue.pushBottom u

/-- Popping `n` times, collecting the returned values in call order. -/
def popN (u : UDEqueue τ) : Nat → List (Option τ) × UDEqueue τ
  | 0 => ([], u)
  | n + 1 =>
      let p := u.popBottom
      let rest := popN p.2 n
      (p.1 :: rest.1, rest.2)

--------------------------------------------------------------------------------
-- Circular array lemmas
--------------------------------------------------------------------------------

theorem CircularArray.GetCapacity_PutTask (c : CircularArray τ) (j : Nat)
    (t : Option τ) : (c.PutTask j t).GetCapacity = c.GetCapacity := rfl

theorem CircularArray.GetTask_PutTask (c : CircularArray τ) (i j : Nat)
    (t : Option τ) :
    (c.PutTask j t).GetTask i =
      if i % c.GetCapacity = j % c.GetCapacity then t else c.GetTask i := by
  simp only [CircularArray.PutTask, CircularArray.GetTask,
    CircularArray.GetCapacity, Function.update_apply]

theorem logCapacity_foldl_put (f : Nat → Option τ) (l : List Nat)
    (a : CircularArray τ) :
    (l.foldl (fun b i => b.PutTask i (f i)) a).logCapacity = a.logCapacity := by
  induction l generalizing a with
  | nil => rfl
  | cons x xs ih => exact (ih (a.PutTask x (f x))).trans rfl

theorem GetCapacity_foldl_put (f : Nat → Option τ) (l : List Nat)
    (a : CircularArray τ) :
    (l.foldl (fun b i => b.PutTask i (f i)) a).GetCapacity = a.GetCapacity := by
  simp only [CircularArray.GetCapacity, logCapacity_foldl_put]

theorem CircularArray.GetCapacity_Resize (c : CircularArray τ) (bottom top : Nat) :
    (c.Resize bottom top).GetCapacity = 2 * c.GetCapacity := by
  simp only [CircularArray.Resize, CircularArray.GetCapacity,
    logCapacity_foldl_put, NewCircularArray, pow_succ, Nat.mul_comm]

theorem mod_ne_of_small_gap (cap i d : Nat) (h0 : 0 < d) (h1 : d < cap) :
    (i + d) % cap ≠ i % cap := by
  intro h
  have hdvd : cap ∣ i + d - i :=
    (Nat.modEq_iff_dvd' (Nat.le_add_right i d)).mp (Nat.ModEq.symm h)
  rw [Nat.add_sub_cancel_left] at hdvd
  exact absurd (Nat.le_of_dvd h0 hdvd) (Nat.not_le.mpr h1)

theorem foldl_put_GetTask (f : Nat → Option τ) (base : CircularArray τ)
    (top : Nat) :
    ∀ m, m ≤ base.GetCapacity → ∀ i, top ≤ i → i < top + m →
      ((List.range' top m).foldl (fun a j => a.PutTask j (f j)) base).GetTask i
        = f i := by
  intro m
  induction m with
  | zero => intro _ i h1 h2; omega
  | succ m ih =>
      intro hm i h1 h2
      rw [List.range'_concat, one_mul, List.foldl_append, List.foldl_cons,
        List.foldl_nil]
      have hcap :
          ((List.range' top m).foldl (fun a j => a.PutTask j (f j))
            base).GetCapacity = base.GetCapacity :=
        GetCapacity_foldl_put f _ base
      rw [CircularArray.GetTask_PutTask, hcap]
      by_cases hi : i = top + m
      · subst hi; simp
      · have hlt : i < top + m := by omega
        have hne : i % base.GetCapacity ≠ (top + m) % base.GetCapacity := by
          have : top + m = i + (top + m - i) := by omega
          rw [this]
          exact fun h =>
            mod_ne_of_small_gap base.GetCapacity i (top + m - i)
              (by omega) (by omega) h.symm
        rw [if_neg hne]
        exact ih (by omega) i h1 hlt

/-- C2: `Resize(bottom, top)` on a circular array of capacity `c = 2^k`, with
`top ≤ bottom` and `bottom - top ≤ c - 1`, returns a circular array of
capacity exactly `2*c` in which `GetTask(i)` agrees with the original array
for every `i ∈ [top, bottom)`. -/
theorem Resize_doubles_and_preserves (c : CircularArray τ) (bottom top : Nat)
    (h1 : top ≤ bottom) (h2 : bottom - top ≤ c.GetCapacity - 1) :
    (c.Resize bottom top).GetCapacity = 2 * c.GetCapacity ∧
    ∀ i, top ≤ i → i < bottom → (c.Resize bottom top).GetTask i = c.GetTask i := by
  refine ⟨c.GetCapacity_Resize bottom top, fun i hi1 hi2 => ?_⟩
  have hcap : 1 ≤ c.GetCapacity := Nat.one_le_two_pow
  have hbase : (NewCircularArray τ (c.logCapacity + 1)).GetCapacity
      = 2 * c.GetCapacity := by
    simp only [NewCircularArray, CircularArray.GetCapacity, pow_succ,
      Nat.mul_comm]
  exact foldl_put_GetTask (fun j => c.GetTask j)
    (NewCircularArray τ (c.logCapacity + 1)) top (bottom - top)
    (by rw [hbase]; omega) i hi1 (by omega)

/-- Witness for C2 at a concrete input: a capacity-2 array holding `some 7` in
slot 0, resized with `bottom = 1`, `top = 0`. -/
theorem Resize_doubles_and_preserves_witness :
    (((NewCircularArray Nat 1).PutTask 0 (some 7)).Resize 1 0).GetCapacity
        = 2 * ((NewCircularArray Nat 1).PutTask 0 (some 7)).GetCapacity ∧
    (((NewCircularArray Nat 1).PutTask 0 (some 7)).Resize 1 0).GetTask 0
        = ((NewCircularArray Nat 1).PutTask 0 (some 7)).GetTask 0 :=
  ⟨(Resize_doubles_and_preserves ((NewCircularArray Nat 1).PutTask 0 (some 7))
      1 0 (by decide) (by decide)).1,
   (Resize_doubles_and_preserves ((NewCircularArray Nat 1).PutTask 0 (some 7))
      1 0 (by decide) (by decide)).2 0 (by decide) (by decide)⟩

--------------------------------------------------------------------------------
-- C1: owner LIFO is violated by the resize argument swap
--------------------------------------------------------------------------------

/-- C1 (code bug): on a fresh queue of capacity 1 (`NewUDEqueue 0`), pushing
tasks `1, 2` and then popping twice returns `[some 2, none]` — the second pop
returns nil instead of task `1`. The second push triggers
`tasks.Resize(int(oldTop), int(u.bottom))`, whose first argument binds the
parameter named `bottom` and second binds `top`, so the copy loop
`for i := top; i < bottom` is empty and task `1` is lost. The claimed reverse
push order `[some 2, some 1]` does not hold. -/
theorem pushPop_lifo_failure :
    (popN (pushAll (NewUDEqueue Nat 0) [1, 2]) 2).1 = [some 2, none] ∧
    [some (2 : Nat), none] ≠ [some 2, some 1] := by decide

--------------------------------------------------------------------------------
-- C3: the logical size stays at most capacity - 1
--------------------------------------------------------------------------------

theorem UDEqueue.GetCapacity_eq (u : UDEqueue τ) :
    u.GetCapacity = u.tasks.GetCapacity := rfl

theorem pushBottom_bottom (u : UDEqueue τ) (t : τ) :
    (u.pushBottom t).bottom = u.bottom + 1 := rfl

theorem pushBottom_top (u : UDEqueue τ) (t : τ) :
    (u.pushBottom t).top = u.top := rfl

theorem pushBottom_GetCapacity (u : UDEqueue τ) (t : τ) :
    (u.pushBottom t).GetCapacity =
      if (u.GetCapacity : Int) - 1 ≤ u.bottom - u.top then 2 * u.GetCapacity
      else u.GetCapacity := by
  simp only [UDEqueue.pushBottom, UDEqueue.GetCapacity]
  split_ifs with h
  · exact (u.tasks.GetCapacity_Resize _ _)
  · rfl

theorem size_invariant_step (op : OwnerOp τ) (u : UDEqueue τ)
    (h : u.bottom - u.top ≤ (u.GetCapacity : Int) - 1) :
    (ownerStep u op).bottom - (ownerStep u op).top
      ≤ ((ownerStep u op).GetCapacity : Int) - 1 := by
  have hcap : 1 ≤ u.GetCapacity := Nat.one_le_two_pow
  cases op with
  | push t =>
      rw [ownerStep, pushBottom_bottom, pushBottom_top, pushBottom_GetCapacity]
      split_ifs with hc
      · push_cast
        omega
      · omega
  | pop =>
      rw [ownerStep]
      have hcap2 : 1 ≤ u.tasks.GetCapacity := Nat.one_le_two_pow
      simp only [UDEqueue.GetCapacity_eq] at h ⊢
      simp only [UDEqueue.popBottom]
      split_ifs with h1 h2 <;> simp <;> omega

/-- C3: starting from a fresh queue, after any sequence of owner operations the
logical size `bottom - top` is at most `capacity - 1`; and whenever
`pushBottom` finds `bottom - top ≥ capacity - 1` it installs a buffer of
exactly doubled capacity. -/
theorem ownerOps_size_invariant (τ : Type) (k : Nat) (ops : List (OwnerOp τ)) :
    ((runOwnerOps (NewUDEqueue τ k) ops).bottom
        - (runOwnerOps (NewUDEqueue τ k) ops).top
      ≤ ((runOwnerOps (NewUDEqueue τ k) ops).GetCapacity : Int) - 1) ∧
    ∀ (u : UDEqueue τ) (t : τ),
      (u.GetCapacity : Int) - 1 ≤ u.bottom - u.top →
      (u.pushBottom t).GetCapacity = 2 * u.GetCapacity := by
  constructor
  · have main : ∀ (l : List (OwnerOp τ)) (u : UDEqueue τ),
        u.bottom - u.top ≤ (u.GetCapacity : Int) - 1 →
        (runOwnerOps u l).bottom - (runOwnerOps u l).top
          ≤ ((runOwnerOps u l).GetCapacity : Int) - 1 := by
      intro l
      induction l with
      | nil => intro u hu; exact hu
      | cons op rest ih =>
          intro u hu
          exact ih (ownerStep u op) (size_invariant_step op u hu)
    refine main ops (NewUDEqueue τ k) ?_
    have h1 : (NewUDEqueue τ k).bottom = 0 := rfl
    have h2 : (NewUDEqueue τ k).top = 0 := rfl
    have h3 : 1 ≤ (NewUDEqueue τ k).GetCapacity := Nat.one_le_two_pow
    rw [h1, h2]
    omega
  · intro u t hu
    rw [pushBottom_GetCapacity, if_pos hu]

/-- Witness for C3 at a concrete input: the empty operation sequence on a
fresh capacity-1 queue, and a push on a full capacity-1 queue doubling the
capacity to 2. -/
theorem ownerOps_size_invariant_witness :
    ((runOwnerOps (NewUDEqueue Nat 0) []).bottom
        - (runOwnerOps (NewUDEqueue Nat 0) []).top
      ≤ ((runOwnerOps (NewUDEqueue Nat 0) []).GetCapacity : Int) - 1) ∧
    ((NewUDEqueue Nat 0).pushBottom 5).GetCapacity
      = 2 * (NewUDEqueue Nat 0).GetCapacity :=
  ⟨(ownerOps_size_invariant Nat 0 []).1,
   (ownerOps_size_invariant Nat 0 []).2 (NewUDEqueue Nat 0) 5 (by decide)⟩

--------------------------------------------------------------------------------
-- C10: popping the last task leaves bottom = top - 1
--------------------------------------------------------------------------------

/-- C10: when the owner pops with logical size exactly 1 (and its CAS on `top`
succeeds, which is always the case with no competing thief), the post-state has
`bottom = top - 1` (logical size `-1`, not the repaired `bottom = top`);
`IsEmpty` still returns `true` there, and the next `popBottom` returns nil and
resets `bottom = top`. -/
theorem popBottom_last_leaves_negative_size (u : UDEqueue τ)
    (h : u.bottom - u.top = 1) :
    ((u.popBottom).2.bottom = (u.popBottom).2.top - 1) ∧
    ((u.popBottom).2.IsEmpty = true) ∧
    (((u.popBottom).2.popBottom).1 = none) ∧
    (((u.popBottom).2.popBottom).2.bottom = ((u.popBottom).2.popBottom).2.top) := by
  have hb : u.bottom = u.top + 1 := by omega
  have hfst : (u.popBottom).2 = { u with bottom := u.top, top := u.top + 1 } := by
    simp only [UDEqueue.popBottom, hb]
    rw [if_neg (by omega), if_neg (by omega)]
    norm_num
  rw [hfst]
  have hsnd : ({ u with bottom := u.top, top := u.top + 1 } : UDEqueue τ).popBottom
      = (none, { u with bottom := u.top + 1, top := u.top + 1 }) := by
    simp only [UDEqueue.popBottom]
    rw [if_pos (by omega)]
  rw [hsnd]
  refine ⟨by show u.top = u.top + 1 - 1; omega, ?_, rfl, rfl⟩
  simp [UDEqueue.IsEmpty]

/-- Witness for C10 at a concrete input: a fresh capacity-4 queue holding the
single pushed task `7`. -/
theorem popBottom_last_leaves_negative_size_witness :
    ((((NewUDEqueue Nat 2).pushBottom 7).popBottom).2.bottom
      = (((NewUDEqueue Nat 2).pushBottom 7).popBottom).2.top - 1) ∧
    ((((NewUDEqueue Nat 2).pushBottom 7).popBottom).2.IsEmpty = true) ∧
    (((((NewUDEqueue Nat 2).pushBottom 7).popBottom).2.popBottom).1 = none) ∧
    (((((NewUDEqueue Nat 2).pushBottom 7).popBottom).2.popBottom).2.bottom
      = ((((NewUDEqueue Nat 2).pushBottom 7).popBottom).2.popBottom).2.top) :=
  popBottom_last_leaves_negative_size ((NewUDEqueue Nat 2).pushBottom 7)
    (by decide)

--------------------------------------------------------------------------------
-- scheduler/pipeutils.go : ChunksOfTasks
--------------------------------------------------------------------------------

/-- `ChunksOfTasks(numTasks, chunkSize)` (pipeutils.go): computes
`nChunks = (numTasks + chunkSize - 1) / chunkSize`, sets `indexes[0] = 0` and,
for `i = 1..nChunks`, `indexes[i] = numTasks` when `i == nChunks` and
`i * chunkSize` otherwise. -/
def ChunksOfTasks (numTasks chunkSize : Nat) : List Nat :=
  let nChunks := (numTasks + chunkSize - 1) / chunkSize
  0 :: (List.range' 1 nChunks).map
    (fun i => if i = nChunks then numTasks else i * chunkSize)

theorem ChunksOfTasks_length (numTasks chunkSize : Nat) :
    (ChunksOfTasks numTasks chunkSize).length
      = (numTasks + chunkSize - 1) / chunkSize + 1 := by
  simp [ChunksOfTasks]

theorem ChunksOfTasks_getD (numTasks chunkSize i : Nat)
    (hi : i ≤ (numTasks + chunkSize - 1) / chunkSize) :
    (ChunksOfTasks numTasks chunkSize).getD i 0
      = if i = (numTasks + chunkSize - 1) / chunkSize ∧ 0 < i then numTasks
        else i * chunkSize := by
  cases i with
  | zero => simp [ChunksOfTasks]
  | succ j =>
      simp only [ChunksOfTasks, List.getD_cons_succ]
      rw [List.getD_eq_getElem?_getD, List.getElem?_map,
        List.getElem?_range' _ _ (by omega : j < (numTasks + chunkSize - 1) / chunkSize),
        one_mul]
      have h1j : 1 + j = j + 1 := by omega
      simp only [Option.map_some', Option.getD_some, h1j]
      split_ifs with h1 h2 h3 <;> first | rfl | omega

/-- C7: for `total ≥ 1` and `chunk_size ≥ 1`, with
`m = ceil(total/chunk_size) = (total + chunk_size - 1) / chunk_size`, the
boundary list has `m + 1` entries, entry `i` equals `i * chunk_size` for every
`i < m`, the final entry equals `total`, and the list is strictly
increasing. -/
theorem ChunksOfTasks_spec (total chunkSize : Nat)
    (h1 : 1 ≤ total) (h2 : 1 ≤ chunkSize) :
    (ChunksOfTasks total chunkSize).length
        = (total + chunkSize - 1) / chunkSize + 1 ∧
    (∀ i, i < (total + chunkSize - 1) / chunkSize →
      (ChunksOfTasks total chunkSize).getD i 0 = i * chunkSize) ∧
    (ChunksOfTasks total chunkSize).getD
        ((total + chunkSize - 1) / chunkSize) 0 = total ∧
    (∀ i, i + 1 < (ChunksOfTasks total chunkSize).length →
      (ChunksOfTasks total chunkSize).getD i 0
        < (ChunksOfTasks total chunkSize).getD (i + 1) 0) := by
  have key := Nat.div_add_mod (total + chunkSize - 1) chunkSize
  have hr : (total + chunkSize - 1) % chunkSize < chunkSize :=
    Nat.mod_lt _ (by omega)
  obtain ⟨m, hm⟩ : ∃ m, (total + chunkSize - 1) / chunkSize = m := ⟨_, rfl⟩
  rw [hm] at key
  have hm1 : 1 ≤ m := by
    rcases Nat.eq_zero_or_pos m with h0 | h0
    · rw [h0, Nat.mul_zero] at key; omega
    · exact h0
  have hcomm : m * chunkSize = chunkSize * m := Nat.mul_comm m chunkSize
  have htot : total ≤ m * chunkSize := by omega
  have hprev : (m - 1) * chunkSize < total := by
    have hsub : (m - 1) * chunkSize = m * chunkSize - 1 * chunkSize :=
      Nat.sub_mul m 1 chunkSize
    rw [one_mul] at hsub
    omega
  rw [hm]
  refine ⟨by rw [ChunksOfTasks_length, hm], fun i hi => ?_, ?_, fun i hi => ?_⟩
  · rw [ChunksOfTasks_getD total chunkSize i (by omega)]
    rw [hm, if_neg (by omega)]
  · rw [ChunksOfTasks_getD total chunkSize m (by rw [hm])]
    rw [hm, if_pos (by omega)]
  · rw [ChunksOfTasks_length, hm] at hi
    rw [ChunksOfTasks_getD total chunkSize i (by omega),
      ChunksOfTasks_getD total chunkSize (i + 1) (by omega), hm]
    have hmul : (i + 1) * chunkSize = i * chunkSize + chunkSize := by ring
    split_ifs with ha hb hc
    · omega
    · omega
    · -- entry i = i * chunkSize with i + 1 = m, entry i+1 = total
      have hieq : i = m - 1 := by omega
      rw [hieq]
      omega
    · omega

/-- Witness for C7 at a concrete input: `total = 5`, `chunk_size = 2`, so the
boundary list is `[0, 2, 4, 5]`. -/
theorem ChunksOfTasks_spec_witness :
    (ChunksOfTasks 5 2).getD ((5 + 2 - 1) / 2) 0 = 5 ∧
    (ChunksOfTasks 5 2).getD 1 0 = 1 * 2 :=
  ⟨(ChunksOfTasks_spec 5 2 (by decide) (by decide)).2.2.1,
   (ChunksOfTasks_spec 5 2 (by decide) (by decide)).2.1 1 (by decide)⟩

--------------------------------------------------------------------------------
-- scheduler/parslices.go : SlicesByRow
--------------------------------------------------------------------------------

/-- `ImageSlice` (parslices.go): indexes representing a slice of an image,
fields in source order. -/
structure ImageSlice where
  XStart : Nat
  XEnd : Nat
  YStart : Nat
  YEnd : Nat
deriving DecidableEq

/-- `SlicesByRow(img, numSlices)` (parslices.go), with the image abstracted to
its row count `nRows = img.Bounds.Dy()` and column count `nCols =
img.Bounds.Dx()`. `rowsPerSlice = int(math.Ceil(float64(nRows)/float64(numSlices)))`
is modelled as the exact ceiling division `(nRows + numSlices - 1) / numSlices`
(`math.Ceil` on the `float64` quotient of Go ints of feasible image sizes is
exact). For each `i`, `YStart = i * rowsPerSlice` truncated to `nRows` when it
exceeds it, `YEnd = YStart + rowsPerSlice` truncated to `nRows`, `XStart = 0`,
`XEnd = nCols`. -/
def SlicesByRow (nRows nCols numSlices : Nat) : List ImageSlice :=
  let rowsPerSlice := (nRows + numSlices - 1) / numSlices
  (List.range numSlices).map (fun i =>
    let ys := min (i * rowsPerSlice) nRows
    { XStart := 0
      XEnd := nCols
      YStart := ys
      YEnd := min (ys + rowsPerSlice) nRows })

/-- C6 counterexample: at `nRows = 1`, `numSlices = 3` we get
`rows_per = ceil(1/3) = 1`, and the claim predicts `YStart = 2 * rows_per = 2`
for slice `i = 2`; the code truncates `YStart` to `nRows = 1`. -/
theorem slicesByRow_claim_counterexample :
    ((SlicesByRow 1 1 3).getD 2 ⟨0, 0, 0, 0⟩).YStart = 1 ∧
    (1 : Nat) ≠ 2 * ((1 + 3 - 1) / 3) := by decide

theorem min_add_min (a b c : Nat) : min (min a b + c) b = min (a + c) b := by
  omega

theorem SlicesByRow_getD (nRows nCols numSlices i : Nat) (hi : i < numSlices) :
    (SlicesByRow nRows nCols numSlices).getD i ⟨0, 0, 0, 0⟩ =
      { XStart := 0
        XEnd := nCols
        YStart := min (i * ((nRows + numSlices - 1) / numSlices)) nRows
        YEnd := min ((i + 1) * ((nRows + numSlices - 1) / numSlices)) nRows } := by
  simp only [SlicesByRow]
  rw [List.getD_eq_getElem?_getD, List.getElem?_map, List.getElem?_range hi]
  simp only [Option.map_some', Option.getD_some]
  rw [min_add_min]
  rw [show i * ((nRows + numSlices - 1) / numSlices)
        + (nRows + numSlices - 1) / numSlices
      = (i + 1) * ((nRows + numSlices - 1) / numSlices) by ring]

/-- C6 amended: `SlicesByRow` returns exactly `numSlices` slices; slice `i` is
`[min(i*rows_per, nRows), min((i+1)*rows_per, nRows))` with `XStart = 0` and
`XEnd = nCols` (the claim's `YStart = i*rows_per` holds only when
`i*rows_per ≤ nRows`); the slices' row ranges are pairwise disjoint and
together cover exactly the rows `[0, nRows)`. -/
theorem SlicesByRow_spec (nRows nCols numSlices : Nat)
    (hn : 1 ≤ numSlices) (hh : 1 ≤ nRows) :
    (SlicesByRow nRows nCols numSlices).length = numSlices ∧
    (∀ i, i < numSlices →
      (SlicesByRow nRows nCols numSlices).getD i ⟨0, 0, 0, 0⟩ =
        { XStart := 0
          XEnd := nCols
          YStart := min (i * ((nRows + numSlices - 1) / numSlices)) nRows
          YEnd := min ((i + 1) * ((nRows + numSlices - 1) / numSlices)) nRows }) ∧
    (∀ r, r < nRows → ∃ i, i < numSlices ∧
      ((SlicesByRow nRows nCols numSlices).getD i ⟨0, 0, 0, 0⟩).YStart ≤ r ∧
      r < ((SlicesByRow nRows nCols numSlices).getD i ⟨0, 0, 0, 0⟩).YEnd) ∧
    (∀ r i j, i < numSlices → j < numSlices →
      ((SlicesByRow nRows nCols numSlices).getD i ⟨0, 0, 0, 0⟩).YStart ≤ r →
      r < ((SlicesByRow nRows nCols numSlices).getD i ⟨0, 0, 0, 0⟩).YEnd →
      ((SlicesByRow nRows nCols numSlices).getD j ⟨0, 0, 0, 0⟩).YStart ≤ r →
      r < ((SlicesByRow nRows nCols numSlices).getD j ⟨0, 0, 0, 0⟩).YEnd →
      i = j) := by
  obtain ⟨rp, hrp⟩ : ∃ rp, (nRows + numSlices - 1) / numSlices = rp := ⟨_, rfl⟩
  have key := Nat.div_add_mod (nRows + numSlices - 1) numSlices
  rw [hrp] at key
  have hmod : (nRows + numSlices - 1) % numSlices < numSlices :=
    Nat.mod_lt _ (by omega)
  have hrp1 : 1 ≤ rp := by
    rcases Nat.eq_zero_or_pos rp with h0 | h0
    · rw [h0, Nat.mul_zero] at key; omega
    · exact h0
  have hcover : nRows ≤ numSlices * rp := by omega
  have hdivrp : ∀ r, r < nRows → r / rp < numSlices ∧ r / rp * rp ≤ r ∧
      r < (r / rp + 1) * rp := by
    intro r hr
    have h1 := Nat.div_add_mod r rp
    have h2 : r % rp < rp := Nat.mod_lt _ (by omega)
    have h3 : r / rp * rp = rp * (r / rp) := Nat.mul_comm _ _
    have h4 : (r / rp + 1) * rp = rp * (r / rp) + rp := by ring
    refine ⟨(Nat.div_lt_iff_lt_mul (by omega)).mpr (by omega), by omega, by omega⟩
  have hmem : ∀ r i, i < numSlices → r < nRows →
      (min (i * rp) nRows ≤ r ∧ r < min ((i + 1) * rp) nRows) → i = r / rp := by
    intro r i hi hr ⟨hs, he⟩
    have hmul : (i + 1) * rp = i * rp + rp := by ring
    have hlo : i * rp ≤ r := by omega
    have hhi : r < (i + 1) * rp := by omega
    exact (Nat.div_eq_of_lt_le hlo hhi).symm
  refine ⟨by simp [SlicesByRow], fun i hi => by rw [SlicesByRow_getD _ _ _ i hi, hrp],
    fun r hr => ?_, fun r i j hi hj hs1 he1 hs2 he2 => ?_⟩
  · obtain ⟨h1, h2, h3⟩ := hdivrp r hr
    refine ⟨r / rp, h1, ?_, ?_⟩
    · rw [SlicesByRow_getD _ _ _ _ h1, hrp]
      simp only
      omega
    · rw [SlicesByRow_getD _ _ _ _ h1, hrp]
      simp only
      omega
  · rw [SlicesByRow_getD _ _ _ i hi, hrp] at hs1 he1
    rw [SlicesByRow_getD _ _ _ j hj, hrp] at hs2 he2
    simp only at hs1 he1 hs2 he2
    have hrn : r < nRows := by omega
    have e1 : i = r / rp := hmem r i hi hrn ⟨hs1, he1⟩
    have e2 : j = r / rp := hmem r j hj hrn ⟨hs2, he2⟩
    rw [e1, e2]

/-- Witness for C6's amended statement at a concrete input: `nRows = 1`,
`nCols = 1`, `numSlices = 3`, slice `i = 2` (the slice on which the original
claim fails). -/
theorem SlicesByRow_spec_witness :
    (SlicesByRow 1 1 3).length = 3 ∧
    (SlicesByRow 1 1 3).getD 2 ⟨0, 0, 0, 0⟩ =
      { XStart := 0
        XEnd := 1
        YStart := min (2 * ((1 + 3 - 1) / 3)) 1
        YEnd := min ((2 + 1) * ((1 + 3 - 1) / 3)) 1 } :=
  ⟨(SlicesByRow_spec 1 1 3 (by decide) (by decide)).1,
   (SlicesByRow_spec 1 1 3 (by decide) (by decide)).2.1 2 (by decide)⟩

--------------------------------------------------------------------------------
-- png package : pixels, kernels, Grayscale, ConvolveFlat, ApplyEffect
--------------------------------------------------------------------------------

/-- A 16-bit RGBA pixel as stored in the `image.RGBA64` buffers; `RGBA()` on a
stored `color.RGBA64` returns the four channel values directly (each in
`[0, 65535]`). -/
structure Pixel where
  r : Nat
  g : Nat
  b : Nat
  a : Nat
deriving DecidableEq

/-- `clamp(comp)` (png.go): `uint16(math.Min(65535, math.Max(0, comp)))`. The
`float64` argument is modelled as an exact rational; the `uint16` conversion
of the clamped non-negative value truncates toward zero, i.e. takes the
floor. -/
def clamp (comp : ℚ) : Nat :=
  (Int.floor (min 65535 (max 0 comp))).toNat

/-- The per-pixel grayscale computation of `Grayscale` (effects file of the
`png` package): `greyC := clamp(float64(r+g+b) / 3)`, output
`color.RGBA64{greyC, greyC, greyC, uint16(a)}`. -/
def grayPixel (p : Pixel) : Pixel :=
  let greyC := clamp (((p.r : ℚ) + (p.g : ℚ) + (p.b : ℚ)) / 3)
  ⟨greyC, greyC, greyC, p.a % 65536⟩

/-- `Grayscale(inputPixels, outputPixels, YStart, YEnd, XStart, XEnd)`: writes
`grayPixel` of the input at every position of the rectangle, leaving the rest
of the output buffer unchanged. Buffers are modelled as total functions on
integer coordinates (all image bounds start at `(0, 0)` as constructed by
`Load`). -/
def Grayscale (inputPixels outputPixels : Int → Int → Pixel)
    (YStart YEnd XStart XEnd : Int) : Int → Int → Pixel :=
  fun x y =>
    if YStart ≤ y ∧ y < YEnd ∧ XStart ≤ x ∧ x < XEnd then
      grayPixel (inputPixels x y)
    else outputPixels x y

/-- `Kernel` (png package): flat list of kernel values with its size,
dimension and center index. `float64` values are modelled as exact rationals
(the blur entries `1/9.0` are not exactly representable in `float64`; no claim
proved here depends on the numeric value of a convolution). -/
structure GoKernel where
  values : List ℚ
  size : Nat
  dim : Nat
  center : Nat

/-- The `effects` map of the `png` package; a lookup of a key not in the map
yields the nil slice. -/
def effectsMap (s : String) : List ℚ :=
  if s = "S" then [0, -1, 0, -1, 5, -1, 0, -1, 0]
  else if s = "E" then [-1, -1, -1, -1, 8, -1, -1, -1, -1]
  else if s = "B" then [1/9, 1/9, 1/9, 1/9, 1/9, 1/9, 1/9, 1/9, 1/9]
  else []

/-- `NewKernel(effect)`: `nil` for `"G"`, otherwise a kernel built from the
`effects` map with `dim = int(math.Sqrt(float64(size)))` (exact for the 3x3
kernels used) and `center = dim / 2`. -/
def NewKernel (effect : String) : Option GoKernel :=
  if effect = "G" then none
  else
    some
      { values := effectsMap effect
        size := (effectsMap effect).length
        dim := Nat.sqrt (effectsMap effect).length
        center := Nat.sqrt (effectsMap effect).length / 2 }

/-- `CreateKernels(effects)`: one kernel per effect string, in order. -/
def CreateKernels (effectStrs : List String) : List (Option GoKernel) :=
  effectStrs.map NewKernel

/-- The per-pixel accumulation of `ConvolveFlat`: iterate over the flat kernel,
zero-padding out-of-bounds accesses; the alpha channel is set to 65535. The
input buffer's bounds `[0, bMaxX) x [0, bMaxY)` are those of the full image. -/
def convolvePixel (kernel : GoKernel) (inputPixels : Int → Int → Pixel)
    (bMaxX bMaxY : Int) (x y : Int) : Pixel :=
  let acc :=
    (List.range kernel.size).foldl
      (fun (acc : ℚ × ℚ × ℚ) i =>
        let m := i / kernel.dim
        let n := i % kernel.dim
        let mm := kernel.dim - 1 - m
        let nn := kernel.dim - 1 - n
        let yy := y + ((kernel.center : Int) - (mm : Int))
        let xx := x + ((kernel.center : Int) - (nn : Int))
        if 0 ≤ xx ∧ xx < bMaxX ∧ 0 ≤ yy ∧ yy < bMaxY then
          let p := inputPixels xx yy
          (acc.1 + (p.r : ℚ) * kernel.values.getD i 0,
           acc.2.1 + (p.g : ℚ) * kernel.values.getD i 0,
           acc.2.2 + (p.b : ℚ) * kernel.values.getD i 0)
        else acc)
      (0, 0, 0)
  ⟨clamp acc.1, clamp acc.2.1, clamp acc.2.2, 65535⟩

/-- `ConvolveFlat(kernel, inputPixels, outputPixels, YStart, YEnd, XStart,
XEnd)`: convolve every position of the rectangle, leaving the rest of the
output buffer unchanged. `bMaxX`/`bMaxY` are `inputPixels.Bounds().Max`. -/
def ConvolveFlat (kernel : GoKernel) (inputPixels outputPixels : Int → Int → Pixel)
    (bMaxX bMaxY YStart YEnd XStart XEnd : Int) : Int → Int → Pixel :=
  fun x y =>
    if YStart ≤ y ∧ y < YEnd ∧ XStart ≤ x ∧ x < XEnd then
      convolvePixel kernel inputPixels bMaxX bMaxY x y
    else outputPixels x y

/-- `Image` (png package): double pixel buffer (`in`, `out` in the source —
`in` is a Lean keyword, hence `inBuf`/`outBuf`), bounds `[0, width) x
[0, height)`, and the `Final` flag: 0 if `in` holds the last modified image,
1 if `out` does. -/
structure Image where
  inBuf : Int → Int → Pixel
  outBuf : Int → Int → Pixel
  width : Int
  height : Int
  Final : Int

/-- `GetInputOutputPixels`: `(in, out)` when `Final == 0`, `(out, in)`
otherwise. -/
def GetInputOutputPixels (im : Image) :
    (Int → Int → Pixel) × (Int → Int → Pixel) :=
  if im.Final = 0 then (im.inBuf, im.outBuf) else (im.outBuf, im.inBuf)

/-- `ApplyEffect(kernel)`: grayscale for a nil kernel, convolution otherwise,
over the full bounds, written into the buffer returned as output by
`GetInputOutputPixels` (i.e. `out` when `Final == 0`, `in` otherwise).
`Final` is not modified here. -/
def ApplyEffect (img : Image) (kernel : Option GoKernel) : Image :=
  let p := GetInputOutputPixels img
  let newOut :=
    match kernel with
    | none => Grayscale p.1 p.2 0 img.height 0 img.width
    | some k => ConvolveFlat k p.1 p.2 img.width img.height 0 img.height 0 img.width
  if img.Final = 0 then { img with outBuf := newOut }
  else { img with inBuf := newOut }

/-- `applyOneThread(img, kernels)` (pipeutils.go): apply each kernel in list
order, inverting the image buffer flag (`img.Final = 1 - img.Final`) after
each application. -/
def applyOneThread (img : Image) (kernels : List (Option GoKernel)) : Image :=
  kernels.foldl
    (fun im kernel =>
      let im2 := ApplyEffect im kernel
      { im2 with Final := 1 - im2.Final })
    img

/-- The buffer that `Save` encodes: `in` when `Final == 0`, `out` otherwise. -/
def Image.activeBuf (img : Image) : Int → Int → Pixel :=
  if img.Final = 0 then img.inBuf else img.outBuf

--------------------------------------------------------------------------------
-- C5: applyOneThread applies kernels in order and flips Final exactly K times
--------------------------------------------------------------------------------

theorem ApplyEffect_Final (img : Image) (kernel : Option GoKernel) :
    (ApplyEffect img kernel).Final = img.Final := by
  simp only [ApplyEffect]
  split_ifs <;> rfl

theorem applyOneThread_final_aux :
    ∀ (ks : List (Option GoKernel)) (img : Image),
      img.Final = 0 ∨ img.Final = 1 →
      (applyOneThread img ks).Final = (img.Final + ks.length) % 2 := by
  intro ks
  induction ks with
  | nil =>
      intro img h
      rcases h with h | h <;> simp [applyOneThread, h]
  | cons k rest ih =>
      intro img h
      have hmid : ({ ApplyEffect img k with
          Final := 1 - (ApplyEffect img k).Final } : Image).Final
          = 1 - img.Final := by
        have hproj : ({ ApplyEffect img k with
            Final := 1 - (ApplyEffect img k).Final } : Image).Final
            = 1 - (ApplyEffect img k).Final := rfl
        rw [hproj, ApplyEffect_Final]
      have hstep : applyOneThread img (k :: rest) =
          applyOneThread
            { ApplyEffect img k with Final := 1 - (ApplyEffect img k).Final }
            rest := rfl
      rw [hstep, ih _ (by rw [hmid]; rcases h with h | h <;> omega), hmid]
      rcases h with h | h <;> rw [h] <;> simp only [List.length_cons] <;> omega

/-- C5: `applyOneThread` applies the kernels in list order (it is the fold of
the single-kernel step over the list, so processing `ks1 ++ ks2` equals
processing `ks1` then `ks2`), and toggles `Final` exactly once per kernel:
for a buffer flag `Final ∈ {0, 1}`, the returned flag is
`(initial Final + K) % 2` for `K` kernels. -/
theorem applyOneThread_spec (img : Image) (kernels : List (Option GoKernel))
    (h : img.Final = 0 ∨ img.Final = 1) :
    (applyOneThread img kernels).Final = (img.Final + kernels.length) % 2 ∧
    ∀ ks1 ks2 : List (Option GoKernel),
      applyOneThread img (ks1 ++ ks2)
        = applyOneThread (applyOneThread img ks1) ks2 := by
  refine ⟨applyOneThread_final_aux kernels img h, fun ks1 ks2 => ?_⟩
  simp [applyOneThread, List.foldl_append]

/-- Witness for C5 at a concrete input: a 1x1 image with `Final = 0` and the
single-effect kernel list `CreateKernels ["G"] = [none]`; the returned flag is
`(0 + 1) % 2 = 1`. -/
theorem applyOneThread_spec_witness :
    (applyOneThread
        ⟨fun _ _ => ⟨0, 0, 0, 0⟩, fun _ _ => ⟨0, 0, 0, 0⟩, 1, 1, 0⟩
        (CreateKernels ["G"])).Final
      = ((⟨fun _ _ => ⟨0, 0, 0, 0⟩, fun _ _ => ⟨0, 0, 0, 0⟩, 1, 1, 0⟩ :
          Image).Final + (CreateKernels ["G"]).length) % 2 :=
  (applyOneThread_spec
    ⟨fun _ _ => ⟨0, 0, 0, 0⟩, fun _ _ => ⟨0, 0, 0, 0⟩, 1, 1, 0⟩
    (CreateKernels ["G"]) (Or.inl rfl)).1

--------------------------------------------------------------------------------
-- C8: grayscale of a solid-red image
--------------------------------------------------------------------------------

/-- C8: the grayscale effect maps the pixel `(65535, 0, 0, 65535)` to
`(21845, 21845, 21845, 65535)`, and a solid-red image (`Final = 0`, every
in-bounds pixel of the active buffer equal to `(65535, 0, 0, 65535)`)
processed with the effects list `["G"]` has every in-bounds pixel of the
buffer that `Save` encodes equal to `(21845, 21845, 21845, 65535)`. -/
theorem grayscale_solid_red (img : Image) (x y : Int)
    (hF : img.Final = 0)
    (hred : ∀ a b : Int, 0 ≤ a → a < img.width → 0 ≤ b → b < img.height →
      img.inBuf a b = ⟨65535, 0, 0, 65535⟩)
    (hx0 : 0 ≤ x) (hxw : x < img.width) (hy0 : 0 ≤ y) (hyh : y < img.height) :
    grayPixel ⟨65535, 0, 0, 65535⟩ = ⟨21845, 21845, 21845, 65535⟩ ∧
    (applyOneThread img (CreateKernels ["G"])).activeBuf x y
      = ⟨21845, 21845, 21845, 65535⟩ := by
  have hg : grayPixel ⟨65535, 0, 0, 65535⟩ = ⟨21845, 21845, 21845, 65535⟩ := by
    simp only [grayPixel, clamp]
    norm_num
    rfl
  refine ⟨hg, ?_⟩
  have hker : CreateKernels ["G"] = [none] := rfl
  rw [hker]
  have h1 : applyOneThread img [none] =
      { img with
          outBuf := Grayscale img.inBuf img.outBuf 0 img.height 0 img.width
          Final := 1 } := by
    simp only [applyOneThread, List.foldl_cons, List.foldl_nil, ApplyEffect,
      GetInputOutputPixels, hF, if_pos rfl]
    rfl
  rw [h1]
  have h2 : ({ img with
      outBuf := Grayscale img.inBuf img.outBuf 0 img.height 0 img.width
      Final := 1 } : Image).activeBuf
      = Grayscale img.inBuf img.outBuf 0 img.height 0 img.width := by
    simp [Image.activeBuf]
  rw [h2, Grayscale, if_pos ⟨hy0, hyh, hx0, hxw⟩,
    hred x y hx0 hxw hy0 hyh, hg]

/-- Witness for C8 at a concrete input: a 16x16 solid-red image, pixel
`(0, 0)` of the saved buffer. -/
theorem grayscale_solid_red_witness :
    grayPixel ⟨65535, 0, 0, 65535⟩ = ⟨21845, 21845, 21845, 65535⟩ ∧
    (applyOneThread
        ⟨fun _ _ => ⟨65535, 0, 0, 65535⟩, fun _ _ => ⟨0, 0, 0, 0⟩, 16, 16, 0⟩
        (CreateKernels ["G"])).activeBuf 0 0
      = ⟨21845, 21845, 21845, 65535⟩ :=
  grayscale_solid_red
    ⟨fun _ _ => ⟨65535, 0, 0, 65535⟩, fun _ _ => ⟨0, 0, 0, 0⟩, 16, 16, 0⟩
    0 0 rfl (fun _ _ _ _ _ _ => rfl)
    (by decide) (by decide) (by decide) (by decide)

--------------------------------------------------------------------------------
-- Pipeline driver (RunPipeBSPWS): worker done channels
--------------------------------------------------------------------------------

/-- Modelled from the spec: `constants.PipePhases` comes from the `constants`
package, which is not among the provided sources; the spec and the driver fix
three pipeline phases (load, transform, save). -/
def PipePhases : Nat := 3

/-- `PipeWorker` (pipeline scheduler file): number of tasks assigned to the
worker plus the identity of its `done` channel. `PrepareWorkers` allocates a
FRESH channel (`done: make(chan struct{})`) for every worker, and the driver
calls `PrepareWorkers` once per phase, so a channel is identified by the pair
(phase, worker index). The wrapped work-stealing worker is irrelevant to the
shutdown claim and omitted. -/
structure PipeWorker where
  numTasks : Nat
  done : Nat × Nat
deriving DecidableEq

/-- `PrepareWorkers(nWorkers, numTasks)` called for phase `phase`: each worker
gets `numTasks / nWorkers` tasks, the last additionally the remainder, and its
own fresh `done` channel. -/
def PrepareWorkers (phase nWorkers numTasks : Nat) : List PipeWorker :=
  let tasksPerWorker := numTasks / nWorkers
  let remainder := numTasks % nWorkers
  (List.range nWorkers).map (fun i =>
    if i ≠ nWorkers - 1 then ⟨tasksPerWorker, (phase, i)⟩
    else ⟨tasksPerWorker + remainder, (phase, i)⟩)

/-- The per-phase worker groups built by `RunPipeBSPWS` for one chunk:
`pipeWorkers[i] = PrepareWorkers(nThreads, len(taskSubset))` for each of the
`PipePhases` phases. -/
def pipeWorkersOf (nThreads numTasks : Nat) : List (List PipeWorker) :=
  (List.range PipePhases).map (fun k => PrepareWorkers k nThreads numTasks)

/-- The done channels closed by the driver's shutdown loop in `RunPipeBSPWS`:
`for i, wg := range pipeCtx.wgs { wg.Wait(); if i < len(pipeCtx.wgs)-1 {
close(pipeCtx.channels[i+1]); close(pipeWorkers[i][0].done) } }` — only the
channel of worker 0 of each phase `i < PipePhases - 1` is closed. -/
def shutdownClosedDones (pipeWorkers : List (List PipeWorker)) :
    List (Nat × Nat) :=
  (List.range PipePhases).filterMap (fun i =>
    if i < PipePhases - 1 then
      some (((pipeWorkers.getD i []).getD 0 ⟨0, (0, 0)⟩).done)
    else none)

/-- C4 (code bug): with `nThreads = 2` workers per phase (two tasks), the
driver's shutdown closes exactly the done channels of worker 0 of phases 0
and 1. Worker 1 of phase 0 exists (its fresh channel is `(0, 1)`) but its
channel is never closed, and no phase-2 worker's channel is ever closed —
`Worker.Run` returns only upon a signal on its `done` channel, so those
goroutines never exit, contradicting the claim that every worker of every
phase is signalled and exits. -/
theorem driver_shutdown_misses_workers :
    shutdownClosedDones (pipeWorkersOf 2 2) = [(0, 0), (1, 0)] ∧
    ((pipeWorkersOf 2 2).getD 0 []).map PipeWorker.done = [(0, 0), (0, 1)] ∧
    ((0, 1) ∉ shutdownClosedDones (pipeWorkersOf 2 2)) ∧
    ((2, 0) ∉ shutdownClosedDones (pipeWorkersOf 2 2)) ∧
    ((2, 1) ∉ shutdownClosedDones (pipeWorkersOf 2 2)) := by decide

--------------------------------------------------------------------------------
-- utils/utils.go : CreateTasks
--------------------------------------------------------------------------------

/-- `Task` (utils.go): input path, output path, effect list. -/
structure GoTask where
  inPath : String
  outPath : String
  effects : List String
deriving DecidableEq

/-- Modelled from the spec: `constants.InDir` comes from the `constants`
package, which is not among the provided sources; §6 of the spec fixes input
paths `./data/in/<dir>/<inPath>`. -/
def InDir : String := "./data/in"

/-- Modelled from the spec: `constants.OutDir` comes from the `constants`
package, which is not among the provided sources; §6 of the spec fixes output
paths `./data/out/<dir>_<outPath>`. -/
def OutDir : String := "./data/out"

/-- One `decoder.Decode` outcome while parsing `effects.txt`: a parsed task,
or an error whose message is compared against `"EOF"`. -/
inductive DecodeResult where
  | ok (task : GoTask)
  | err (msg : String)

/-- The parsing loop of `CreateTasks`: for each decoded entry, one task per
data directory is appended; decoding an error stops the loop — returning the
queue on `"EOF"`, calling `os.Exit(1)` (modelled as `Except.error 1`) on any
other error. In Go the decoder always eventually yields an error; an exhausted
model stream ends parsing like EOF. -/
def createTasksLoop (dirs : List String) (stream : List DecodeResult)
    (acc : List GoTask) : Except Nat (List GoTask) :=
  match stream with
  | [] => Except.ok acc
  | DecodeResult.err msg :: _ =>
      if msg = "EOF" then Except.ok acc else Except.error 1
  | DecodeResult.ok task :: rest =>
      createTasksLoop dirs rest
        (acc ++ dirs.map (fun dir =>
          { inPath := InDir ++ "/" ++ dir ++ "/" ++ task.inPath
            outPath := OutDir ++ "/" ++ dir ++ "_" ++ task.outPath
            effects := task.effects }))

/-- `CreateTasks(dataDirs)` (utils.go): `openFails` abstracts whether
`os.Open(cons.EffectsPathFile)` returns an error (in which case the process
exits with code 1, modelled as `Except.error 1`); otherwise `dataDirs` is
split on `"+"` and the decode loop runs over the file's decode outcomes. -/
def CreateTasks (openFails : Bool) (stream : List DecodeResult)
    (dataDirs : String) : Except Nat (List GoTask) :=
  if openFails then Except.error 1
  else createTasksLoop (dataDirs.splitOn "+") stream []

/-- A decode stream contains a failure that is not end-of-file before its
first `"EOF"`: this is exactly the condition under which the parsing loop
exits the process. -/
def hasNonEofFailure : List DecodeResult → Bool
  | [] => false
  | DecodeResult.err msg :: _ => if msg = "EOF" then false else true
  | DecodeResult.ok _ :: rest => hasNonEofFailure rest

theorem createTasksLoop_cases (dirs : List String) :
    ∀ (stream : List DecodeResult) (acc : List GoTask),
      (createTasksLoop dirs stream acc = Except.error 1
        ↔ hasNonEofFailure stream = true) ∧
      (hasNonEofFailure stream = false →
        ∃ tasks, createTasksLoop dirs stream acc = Except.ok tasks) := by
  intro stream
  induction stream with
  | nil =>
      intro acc
      exact ⟨by simp [createTasksLoop, hasNonEofFailure], fun _ => ⟨acc, rfl⟩⟩
  | cons x rest ih =>
      intro acc
      cases x with
      | ok task =>
          exact ⟨(ih _).1, fun h => (ih _).2 h⟩
      | err msg =>
          by_cases hmsg : msg = "EOF" <;>
            simp [createTasksLoop, hasNonEofFailure, hmsg]

/-- C9: `CreateTasks` exits the process with code 1 exactly when the effects
file cannot be opened or a line fails to decode with an error other than
end-of-file; reaching `"EOF"` (or exhausting the input) ends parsing normally
and the task list is returned. -/
theorem CreateTasks_exit_code (openFails : Bool) (stream : List DecodeResult)
    (dataDirs : String) :
    (CreateTasks openFails stream dataDirs = Except.error 1
      ↔ (openFails = true ∨ hasNonEofFailure stream = true)) ∧
    ((openFails = false ∧ hasNonEofFailure stream = false) →
      ∃ tasks, CreateTasks openFails stream dataDirs = Except.ok tasks) := by
  cases openFails with
  | true =>
      refine ⟨by simp [CreateTasks], ?_⟩
      rintro ⟨h, -⟩
      exact absurd h (by simp)
  | false =>
      have h := createTasksLoop_cases (dataDirs.splitOn "+") stream []
      refine ⟨?_, fun hok => (h ).2 hok.2⟩
      simp only [CreateTasks, Bool.false_eq_true, if_false, false_or]
      exact (h ).1

/-- Witness for C9 at a concrete input: the file opens, one entry decodes,
then EOF; the task list is returned. -/
theorem CreateTasks_exit_code_witness :
    ∃ tasks,
      CreateTasks false
        [DecodeResult.ok ⟨"img.png", "img_Out.png", ["G"]⟩,
         DecodeResult.err "EOF"] "small" = Except.ok tasks :=
  (CreateTasks_exit_code false
    [DecodeResult.ok ⟨"img.png", "img_Out.png", ["G"]⟩,
     DecodeResult.err "EOF"] "small").2 ⟨rfl, rfl⟩

end ImageEditor
